import Mathlib

/-!
Verification of the Soong build-orchestration core:

* `java/hiddenapi.go` — the shared output registry (`hiddenAPIGetOutputs`,
  `hiddenAPISaveCSVOutputs`, `hiddenAPISaveDexInputs`, `hiddenAPIMakeVars`).
* `ui/build/kati.go` — the kati subprocess runner (`genKatiSuffix`, `runKati`,
  `katiIncludeRe`, `katiRewriteOutput`).

The Go code is shallowly embedded: artifact paths are strings, the mutable
registry becomes explicit state passing, the terminal sinks become
accumulated output strings, and subprocess/file-system outcomes become
explicit parameters.  Strings are modelled as sequences of characters; the
code at hand only ever compares and slices ASCII text, where Go's byte-wise
operations and the character-wise model agree.
-/

/-! ## Lexicographic string order, as used by Go's `sort.Strings`

Go sorts byte-wise; on UTF-8 encoded strings byte-wise order coincides with
code-point order, which is what `charListLe` computes. -/

/-- Lexicographic comparison of character sequences by code point. -/
def charListLe : List Char → List Char → Bool
  | [], _ => true
  | _ :: _, [] => false
  | a :: as, b :: bs => if a = b then charListLe as bs else decide (a < b)

/-- Lexicographic comparison of strings, the order used by `sort.Strings`. -/
def strLe (a b : String) : Bool := charListLe a.data b.data

theorem charListLe_total (a b : List Char) :
    charListLe a b = true ∨ charListLe b a = true := by
  induction a generalizing b with
  | nil => left; rfl
  | cons x xs ih =>
    cases b with
    | nil => right; rfl
    | cons y ys =>
      by_cases hxy : x = y
      · subst hxy
        simpa [charListLe] using ih ys
      · rcases lt_trichotomy x y with h | h | h
        · left; simp [charListLe, hxy, h]
        · exact absurd h hxy
        · right; simp [charListLe, Ne.symm hxy, h, not_lt_of_gt h]

theorem charListLe_trans {a b c : List Char} (hab : charListLe a b = true)
    (hbc : charListLe b c = true) : charListLe a c = true := by
  induction a generalizing b c with
  | nil => rfl
  | cons x xs ih =>
    cases b with
    | nil => simp [charListLe] at hab
    | cons y ys =>
      cases c with
      | nil => simp [charListLe] at hbc
      | cons z zs =>
        by_cases hxy : x = y <;> by_cases hyz : y = z
        · subst hxy; subst hyz
          simp [charListLe] at hab hbc ⊢
          exact ih hab hbc
        · subst hxy
          simp [charListLe, hyz] at hbc ⊢
          simp [hyz, hbc]
        · subst hyz
          simp [charListLe, hxy] at hab ⊢
          simp [hxy, hab]
        · simp [charListLe, hxy] at hab
          simp [charListLe, hyz] at hbc
          have hxz : x < z := lt_trans hab hbc
          simp [charListLe, ne_of_lt hxz, hxz]

theorem charListLe_antisymm {a b : List Char} (hab : charListLe a b = true)
    (hba : charListLe b a = true) : a = b := by
  induction a generalizing b with
  | nil =>
    cases b with
    | nil => rfl
    | cons y ys => simp [charListLe] at hba
  | cons x xs ih =>
    cases b with
    | nil => simp [charListLe] at hab
    | cons y ys =>
      by_cases hxy : x = y
      · subst hxy
        simp [charListLe] at hab hba
        exact congrArg (x :: ·) (ih hab hba)
      · simp [charListLe, hxy] at hab
        simp [charListLe, Ne.symm hxy] at hba
        exact absurd (lt_trans hab hba) (lt_irrefl x)

/-- The sorting relation on strings, as a proposition. -/
def StrLeR (a b : String) : Prop := strLe a b = true

instance : DecidableRel StrLeR := fun _ _ => inferInstanceAs (Decidable (_ = true))

instance : IsTotal String StrLeR := ⟨fun a b => charListLe_total a.data b.data⟩

instance : IsTrans String StrLeR := ⟨fun _ _ _ hab hbc => charListLe_trans hab hbc⟩

instance : IsAntisymm String StrLeR :=
  ⟨fun a b hab hba => by
    cases a; cases b
    exact congrArg String.mk (charListLe_antisymm hab hba)⟩

/-! ## The hidden-API shared output registry (`java/hiddenapi.go`)

`hiddenAPIGetOutputs` obtains, via `config.Once`, a per-invocation triple of
path lists (flags CSVs, metadata CSVs, dex inputs); `hiddenAPISaveCSVOutputs`
and `hiddenAPISaveDexInputs` append to them under a mutex; the registered
make-vars provider `hiddenAPIMakeVars` sorts each list and exports it as a
space-joined value.  Paths are modelled by their string form
(`android.Paths.Strings`). -/

/-- The triple of accumulated output lists held in the registry:
flags CSVs, metadata CSVs and dex inputs, in declaration order. -/
structure HiddenAPIOutputs where
  flagsCSV : List String
  metadataCSV : List String
  dexInputs : List String
deriving DecidableEq

/-- Modelled from the spec: `android.Config.Once` (defined in the repository's
`android` package, outside the files at hand) caches the value produced by the
first caller for a key; every later access for the same key observes that same
value ("the mapping is created exactly once per build invocation, lazily, on
first access, ... first-writer-wins, all others observe the same instance").
The per-invocation cache slot for `hiddenAPIOutputsKey` is therefore an
optional registry value, `none` before first access. -/
abbrev OnceCache := Option HiddenAPIOutputs

/-- `hiddenAPIGetOutputs`: fetch the per-invocation triple, creating the three
empty lists on first access.  Returns the triple together with the updated
cache (the Go code returns three pointers into the cached value; state
passing replaces the pointers). -/
def hiddenAPIGetOutputs (s : OnceCache) : HiddenAPIOutputs × OnceCache :=
  match s with
  | some r => (r, some r)
  | none => (⟨[], [], []⟩, some ⟨[], [], []⟩)

/-- `hiddenAPISaveCSVOutputs`: append a flags CSV and a metadata CSV to the
registry (the mutex-guarded double append). -/
def hiddenAPISaveCSVOutputs (flagsCSV metadataCSV : String) (s : OnceCache) :
    OnceCache :=
  let (r, _) := hiddenAPIGetOutputs s
  some ⟨r.flagsCSV ++ [flagsCSV], r.metadataCSV ++ [metadataCSV], r.dexInputs⟩

/-- `hiddenAPISaveDexInputs`: append a dex input to the registry. -/
def hiddenAPISaveDexInputs (dexInput : String) (s : OnceCache) : OnceCache :=
  let (r, _) := hiddenAPIGetOutputs s
  some ⟨r.flagsCSV, r.metadataCSV, r.dexInputs ++ [dexInput]⟩

/-- The drain step inside `hiddenAPIMakeVars`'s `export` closure:
`s := paths.Strings(); sort.Strings(s)`. -/
def drainSorted (l : List String) : List String := l.insertionSort StrLeR

/-- The exported value of one name: `strings.Join(s, " ")` of the sorted
list. -/
def exportValue (l : List String) : String := " ".intercalate (drainSorted l)

/-- `hiddenAPIMakeVars`: drain the registry and export the three variables,
in source order, as `(name, value)` pairs fed to `ctx.Strict`. -/
def hiddenAPIMakeVars (o : HiddenAPIOutputs) : List (String × String) :=
  [("SOONG_HIDDENAPI_FLAGS", exportValue o.flagsCSV),
   ("SOONG_HIDDENAPI_GREYLIST_METADATA", exportValue o.metadataCSV),
   ("SOONG_HIDDENAPI_DEX_INPUTS", exportValue o.dexInputs)]

/-! ## Registry theorems -/

theorem drainSorted_sorted (l : List String) : List.Sorted StrLeR (drainSorted l) :=
  List.sorted_insertionSort StrLeR l

theorem drainSorted_perm (l : List String) : (drainSorted l).Perm l :=
  List.perm_insertionSort StrLeR l

theorem drainSorted_eq_of_perm {l1 l2 : List String} (h : l1.Perm l2) :
    drainSorted l1 = drainSorted l2 :=
  List.eq_of_perm_of_sorted
    (((drainSorted_perm l1).trans h).trans (drainSorted_perm l2).symm)
    (drainSorted_sorted l1) (drainSorted_sorted l2)

/-- Appending one dex input to a populated registry grows only its dex list. -/
theorem saveDex_some (v : String) (r : HiddenAPIOutputs) :
    hiddenAPISaveDexInputs v (some r) =
      some ⟨r.flagsCSV, r.metadataCSV, r.dexInputs ++ [v]⟩ := rfl

theorem saveDex_foldl_length (vs : List String) (r : HiddenAPIOutputs) :
    ((hiddenAPIGetOutputs
        (vs.foldl (fun st v => hiddenAPISaveDexInputs v st) (some r))).1).dexInputs.length =
      r.dexInputs.length + vs.length := by
  induction vs generalizing r with
  | nil => simp [hiddenAPIGetOutputs]
  | cons v vs ih =>
    simp only [List.foldl_cons, saveDex_some]
    rw [ih]
    simp
    omega

/-- C1: the drain/export step sorts the accumulated path strings
lexicographically and joins them with single spaces, so the exported value is
independent of arrival order; appending `"b.jar"`, `"a.jar"` from one caller
and `"c.jar"` from another drains to `["a.jar", "b.jar", "c.jar"]`. -/
theorem c1_export_sorted_arrival_independent (l1 l2 : List String)
    (h : l1.Perm l2) :
    exportValue l1 = exportValue l2 ∧
    drainSorted (["b.jar", "a.jar"] ++ ["c.jar"]) = ["a.jar", "b.jar", "c.jar"] := by
  refine ⟨?_, by decide⟩
  unfold exportValue
  rw [drainSorted_eq_of_perm h]

/-- C1 witness: concrete arrival orders of the same three artifact paths
export identically, and the spec's example drains sorted. -/
theorem c1_witness :
    exportValue ["b.jar", "a.jar", "c.jar"] = exportValue ["c.jar", "b.jar", "a.jar"] ∧
    drainSorted (["b.jar", "a.jar"] ++ ["c.jar"]) = ["a.jar", "b.jar", "c.jar"] :=
  c1_export_sorted_arrival_independent ["b.jar", "a.jar", "c.jar"]
    ["c.jar", "b.jar", "a.jar"] (by decide)

/-- C8: draining a never-appended registry yields empty values, not an error:
the export step assigns a (possibly empty) value for all three export names. -/
theorem c8_drain_empty_no_error :
    hiddenAPIMakeVars (hiddenAPIGetOutputs none).1 =
      [("SOONG_HIDDENAPI_FLAGS", ""),
       ("SOONG_HIDDENAPI_GREYLIST_METADATA", ""),
       ("SOONG_HIDDENAPI_DEX_INPUTS", "")] ∧
    drainSorted [] = ([] : List String) ∧
    ∀ o : HiddenAPIOutputs, (hiddenAPIMakeVars o).map Prod.fst =
      ["SOONG_HIDDENAPI_FLAGS", "SOONG_HIDDENAPI_GREYLIST_METADATA",
       "SOONG_HIDDENAPI_DEX_INPUTS"] :=
  ⟨rfl, rfl, fun _ => rfl⟩

/-- C9: the backing collection is created once — re-fetching after any access
returns the same registry value and leaves the cache unchanged — and N appends
of values (any serialization of N concurrent callers, the mutex serializing
them) starting from the uncreated cache all land in the one shared collection:
drain returns exactly N values. -/
theorem c9_single_creation (vs : List String) (s : OnceCache) :
    (hiddenAPIGetOutputs (hiddenAPIGetOutputs s).2).1 = (hiddenAPIGetOutputs s).1 ∧
    (hiddenAPIGetOutputs (hiddenAPIGetOutputs s).2).2 = (hiddenAPIGetOutputs s).2 ∧
    (drainSorted ((hiddenAPIGetOutputs
        (vs.foldl (fun st v => hiddenAPISaveDexInputs v st) none)).1).dexInputs).length =
      vs.length := by
  refine ⟨?_, ?_, ?_⟩
  · cases s <;> rfl
  · cases s <;> rfl
  · rw [(drainSorted_perm _).length_eq]
    cases vs with
    | nil => rfl
    | cons v vs =>
      have h0 : hiddenAPISaveDexInputs v none =
          some ⟨[], [], [] ++ [v]⟩ := rfl
      simp only [List.foldl_cons, h0]
      rw [saveDex_foldl_length]
      simp
      omega

/-! ## Kati progress-line classification (`ui/build/kati.go`)

The Go code classifies a line as verbose/progress when it matches the RE2
pattern `katiIncludeRe`, anchored at both ends:

  between the anchors, an optional group of a bracketed counter
  (left bracket, digits, slash, digits, right bracket, space),
  then the literal text `including `, then one or more characters other
  than a space, then a space, then three unescaped dot metacharacters.

Note the three trailing dots are not escaped: each matches any single
character except a newline.  The functions below implement exactly this
matching, made deterministic: the filename atom cannot contain a space, so
the separating space of a match is necessarily the first space after
`including `, and the greedy digit runs cannot cross the slash or the
closing bracket. -/

/-- The literal `including ` that follows the optional counter. -/
def includingLit : List Char := "including ".data

/-- Matches the tail after the filename's first character: more non-space
filename characters, then the separating space, then exactly three
characters, each matched by an unescaped dot (any character but a
newline). -/
def includeTailAfter : List Char → Bool
  | [] => false
  | c :: rest =>
    if c = ' ' then rest.length == 3 && rest.all (fun d => d != '\n')
    else includeTailAfter rest

/-- Matches `[^ ]+ ...` against the whole remaining line: a non-empty
non-space filename token, a space, and three any-characters ending the
line. -/
def includeTail : List Char → Bool
  | [] => false
  | c :: rest => c != ' ' && includeTailAfter rest

/-- Matches `including [^ ]+ ...` against the whole remaining line. -/
def matchIncluding (cs : List Char) : Bool :=
  (cs.take 10 == includingLit) && includeTail (cs.drop 10)

/-- Parses the counter group `[` digits `/` digits `] ` and returns what
follows it, or `none` when the group is not present in exactly that shape. -/
def parseCounter (cs : List Char) : Option (List Char) :=
  match cs with
  | '[' :: rest =>
    match rest.span Char.isDigit with
    | ([], _) => none
    | (_ :: _, rest2) =>
      match rest2 with
      | '/' :: rest3 =>
        match rest3.span Char.isDigit with
        | ([], _) => none
        | (_ :: _, rest4) =>
          match rest4 with
          | ']' :: ' ' :: rest5 => some rest5
          | _ => none
      | _ => none
  | _ => none

/-- `katiIncludeRe.MatchString`: the line matches with the counter group
absent, or present in exactly the counter shape. -/
def katiIncludeMatch (s : String) : Bool :=
  matchIncluding s.data ||
    (match parseCounter s.data with
     | some rest => matchIncluding rest
     | none => false)

/-! ### The classifier the claim describes, for comparison

The claim reads the pattern's three trailing dots as literal dot
characters.  `c2SpecClassify` transcribes that reading: the same shape, but
the line must end in a space followed by the three-character text of three
dot characters. -/

/-- Tail matcher for the claim's literal reading: after the filename's
first character, more non-space characters, then a space, then the literal
three dots ending the line. -/
def c2LiteralTailAfter : List Char → Bool
  | [] => false
  | c :: rest =>
    if c = ' ' then rest == ['.', '.', '.']
    else c2LiteralTailAfter rest

/-- The claim's literal reading of `[^ ]+ \.\.\.` (three literal dots). -/
def c2LiteralTail : List Char → Bool
  | [] => false
  | c :: rest => c != ' ' && c2LiteralTailAfter rest

/-- The claim's literal reading of the whole body after the counter. -/
def c2LiteralIncluding (cs : List Char) : Bool :=
  (cs.take 10 == includingLit) && c2LiteralTail (cs.drop 10)

/-- The classifier as the claim words it: `including <file> ...` with three
literal dots at end of line, optionally prefixed by a `[n/m] ` counter. -/
def c2SpecClassify (s : String) : Bool :=
  c2LiteralIncluding s.data ||
    (match parseCounter s.data with
     | some rest => c2LiteralIncluding rest
     | none => false)

/-! ## ANSI escape stripping

Used by the non-interactive branch of `katiRewriteOutput`. -/

/-- A CSI parameter or intermediate byte (anything between the `[` and the
final byte of an ANSI control sequence). -/
def isCsiParam (c : Char) : Bool := 0x20 ≤ c.toNat && c.toNat ≤ 0x3f

/-- A CSI final byte, terminating an ANSI control sequence. -/
def isCsiFinal (c : Char) : Bool := 0x40 ≤ c.toNat && c.toNat ≤ 0x7e

/-- The scanning mode while stripping: outside any sequence, just after an
escape byte, or inside a control sequence (after the escape byte and `[`). -/
inductive AnsiMode where
  | plain
  | esc
  | csi
deriving DecidableEq

/-- One character of the stripping scan: emitted characters accumulate in
the second component. -/
def ansiStep (s : AnsiMode × List Char) (c : Char) : AnsiMode × List Char :=
  match s.1 with
  | .plain => if c = '\x1b' then (.esc, s.2) else (.plain, s.2 ++ [c])
  | .esc =>
    if c = '[' then (.csi, s.2)
    else if c = '\x1b' then (.esc, s.2 ++ ['\x1b'])
    else (.plain, s.2 ++ ['\x1b', c])
  | .csi =>
    if isCsiParam c then (.csi, s.2)
    else if isCsiFinal c then (.plain, s.2)
    else if c = '\x1b' then (.esc, s.2)
    else (.plain, s.2 ++ [c])

/-- Modelled from the spec: `stripAnsiEscapes` (defined in the repository's
`ui/build` package, outside the files at hand) removes embedded terminal
color/cursor escape sequences — an escape byte, `[`, parameter bytes, and a
final byte — and preserves every other character.  An escape byte pending at
the end of input is kept as an ordinary character. -/
def stripAnsi (cs : List Char) : List Char :=
  match cs.foldl ansiStep (.plain, []) with
  | (.esc, acc) => acc ++ ['\x1b']
  | (_, acc) => acc

/-- String form of `stripAnsi`. -/
def stripAnsiStr (s : String) : String := ⟨stripAnsi s.data⟩

/-! ## The output streamer (`katiRewriteOutput`)

The two sinks are `ctx.Stdout()` (the interactive sink) and `ctx.Stderr()`
(the secondary sink); each is modelled by the string written to it so far,
and `haveBlankLine` is the Go local of the same name (`true` is the spec's
`BLANK` state, `false` its `TRANSIENT_HELD`). -/

/-- The streamer's render state: the `haveBlankLine` flag and the bytes
written to the two sinks. -/
structure KatiState where
  haveBlankLine : Bool
  stdout : String
  stderr : String
deriving DecidableEq

/-- The truncation applied to a verbose line: if a terminal width is known
and the line is longer, keep its first `max` characters. -/
def truncateLine (w : Option Nat) (line : String) : String :=
  match w with
  | some max => if line.length > max then line.take max else line
  | none => line

/-- One iteration of `katiRewriteOutput`'s scanner loop: `smart` is
`ctx.IsTerminal()`, `w` the freshly-measured terminal width (`none` when
unavailable), `line` the scanned line (newline already removed). -/
def processKatiLine (smart : Bool) (w : Option Nat) (st : KatiState)
    (line : String) : KatiState :=
  if smart && katiIncludeMatch line then
    ⟨false, st.stdout ++ "\r" ++ truncateLine w line ++ "\x1b[K", st.stderr⟩
  else if smart && !st.haveBlankLine then
    ⟨true, st.stdout ++ "\n", st.stderr ++ line ++ "\n"⟩
  else if !smart then
    ⟨st.haveBlankLine, st.stdout, st.stderr ++ stripAnsiStr line ++ "\n"⟩
  else
    ⟨st.haveBlankLine, st.stdout, st.stderr ++ line ++ "\n"⟩

/-- The scanner loop, with `i` counting lines so that the width probe
`width` can answer differently for every line (the terminal may be resized
mid-run). -/
def katiLoop (smart : Bool) (width : Nat → Option Nat) :
    Nat → KatiState → List String → KatiState
  | _, st, [] => st
  | i, st, l :: ls => katiLoop smart width (i + 1) (processKatiLine smart (width i) st l) ls

/-- `katiRewriteOutput` on a whole transcript: run the scanner loop from the
initial state (`haveBlankLine = true`, both sinks empty), then flush the
final newline if the last rendered line was left uncommitted. -/
def katiRewriteOutput (smart : Bool) (width : Nat → Option Nat)
    (lines : List String) : KatiState :=
  let st := katiLoop smart width 0 ⟨true, "", ""⟩ lines
  if !st.haveBlankLine then ⟨st.haveBlankLine, st.stdout ++ "\n", st.stderr⟩ else st

/-! ## Streamer theorems -/

theorem ansiFold_plain (a : List Char) (acc : List Char)
    (ha : ∀ c ∈ a, c ≠ '\x1b') :
    a.foldl ansiStep (.plain, acc) = (.plain, acc ++ a) := by
  induction a generalizing acc with
  | nil => simp
  | cons c rest ih =>
    have hc : c ≠ '\x1b' := ha c (List.mem_cons_self c rest)
    simp only [List.foldl_cons, ansiStep, hc, if_false]
    rw [ih _ (fun d hd => ha d (List.mem_cons_of_mem c hd))]
    simp

theorem ansiFold_csi (ps : List Char) (acc : List Char)
    (hps : ∀ c ∈ ps, isCsiParam c = true) :
    ps.foldl ansiStep (.csi, acc) = (.csi, acc) := by
  induction ps with
  | nil => simp
  | cons c rest ih =>
    have hc : isCsiParam c = true := hps c (List.mem_cons_self c rest)
    simp only [List.foldl_cons, ansiStep, hc, if_true]
    exact ih (fun d hd => hps d (List.mem_cons_of_mem c hd))

theorem csiFinal_not_param {c : Char} (h : isCsiFinal c = true) :
    isCsiParam c = false := by
  simp only [isCsiFinal, Bool.and_eq_true, decide_eq_true_eq] at h
  have hn : ¬c.toNat ≤ 0x3f := by omega
  simp [isCsiParam, hn]

/-- Characters outside any escape sequence pass through untouched. -/
theorem stripAnsi_no_esc (a : List Char) (ha : ∀ c ∈ a, c ≠ '\x1b') :
    stripAnsi a = a := by
  simp [stripAnsi, ansiFold_plain a [] ha]

/-- One embedded control sequence is removed whole; everything around it is
preserved. -/
theorem stripAnsi_removes (a b ps : List Char) (f : Char)
    (ha : ∀ c ∈ a, c ≠ '\x1b') (hb : ∀ c ∈ b, c ≠ '\x1b')
    (hps : ∀ c ∈ ps, isCsiParam c = true) (hf : isCsiFinal f = true) :
    stripAnsi (a ++ '\x1b' :: '[' :: (ps ++ f :: b)) = a ++ b := by
  unfold stripAnsi
  rw [List.foldl_append, ansiFold_plain a [] ha]
  simp only [List.nil_append, List.foldl_cons]
  have h1 : ansiStep (.plain, a) '\x1b' = (.esc, a) := by simp [ansiStep]
  have h2 : ansiStep (.esc, a) '[' = (.csi, a) := by simp [ansiStep]
  rw [h1, h2, List.foldl_append, ansiFold_csi ps a hps]
  have h3 : ansiStep (.csi, a) f = (.plain, a) := by
    simp [ansiStep, csiFinal_not_param hf, hf]
  rw [List.foldl_cons, h3, ansiFold_plain b a hb]

/-- C3: on an interactive terminal, a PROGRESS line is truncated to the
width measured for that line (when available and the line is longer), then
a carriage return, the truncated line and the clear-to-end-of-line sequence
are written to the interactive sink with no trailing newline, and the state
becomes TRANSIENT_HELD (`haveBlankLine = false`). -/
theorem c3_progress_interactive (w : Option Nat) (st : KatiState)
    (line : String) (h : katiIncludeMatch line = true) :
    processKatiLine true w st line =
      ⟨false, st.stdout ++ "\r" ++ truncateLine w line ++ "\x1b[K", st.stderr⟩ ∧
    truncateLine none line = line ∧
    (∀ m : Nat, line.length > m → truncateLine (some m) line = line.take m) ∧
    (∀ m : Nat, ¬line.length > m → truncateLine (some m) line = line) := by
  refine ⟨by simp [processKatiLine, h], rfl, ?_, ?_⟩
  · intro m hm; simp [truncateLine, hm]
  · intro m hm; simp [truncateLine, hm]

/-- C3 witness: a concrete PROGRESS line, rendered at width 12. -/
theorem c3_witness :
    katiIncludeMatch "including foo.mk ..." = true ∧
    processKatiLine true (some 12) ⟨true, "", "e"⟩ "including foo.mk ..." =
      ⟨false, "" ++ "\r" ++ truncateLine (some 12) "including foo.mk ..." ++ "\x1b[K", "e"⟩ :=
  ⟨by decide,
   (c3_progress_interactive (some 12) ⟨true, "", "e"⟩ "including foo.mk ..." (by decide)).1⟩

/-- C4: on an interactive terminal, a DURABLE line in state TRANSIENT_HELD
first commits the held progress line with exactly one newline on the
interactive sink, moving to BLANK, then goes newline-terminated to the
secondary sink; in state BLANK it goes straight to the secondary sink with
no write to the interactive sink. -/
theorem c4_durable_interactive (w : Option Nat) (st : KatiState)
    (line : String) (h : katiIncludeMatch line = false) :
    (st.haveBlankLine = false →
      processKatiLine true w st line =
        ⟨true, st.stdout ++ "\n", st.stderr ++ line ++ "\n"⟩) ∧
    (st.haveBlankLine = true →
      processKatiLine true w st line =
        ⟨true, st.stdout, st.stderr ++ line ++ "\n"⟩) := by
  constructor
  · intro hb; simp [processKatiLine, h, hb]
  · intro hb; simp [processKatiLine, h, hb]

/-- C4 witness: one concrete durable line against each render state. -/
theorem c4_witness :
    processKatiLine true none ⟨false, "p", "e"⟩ "warning: foo" =
      ⟨true, "p" ++ "\n", "e" ++ "warning: foo" ++ "\n"⟩ ∧
    processKatiLine true none ⟨true, "p", "e"⟩ "warning: foo" =
      ⟨true, "p", "e" ++ "warning: foo" ++ "\n"⟩ :=
  ⟨(c4_durable_interactive none ⟨false, "p", "e"⟩ "warning: foo" (by decide)).1 rfl,
   (c4_durable_interactive none ⟨true, "p", "e"⟩ "warning: foo" (by decide)).2 rfl⟩

/-- C6: when the sink is not an interactive terminal, every line — PROGRESS
or DURABLE alike — is emitted newline-terminated to the secondary sink with
its embedded ANSI escape sequences stripped and every other character
preserved; nothing is written to the interactive sink. -/
theorem c6_noninteractive_strip (w : Option Nat) (st : KatiState)
    (a b ps : List Char) (f : Char)
    (ha : ∀ c ∈ a, c ≠ '\x1b') (hb : ∀ c ∈ b, c ≠ '\x1b')
    (hps : ∀ c ∈ ps, isCsiParam c = true) (hf : isCsiFinal f = true) :
    (∀ line : String, processKatiLine false w st line =
      ⟨st.haveBlankLine, st.stdout, st.stderr ++ stripAnsiStr line ++ "\n"⟩) ∧
    stripAnsiStr ⟨a ++ '\x1b' :: '[' :: (ps ++ f :: b)⟩ = ⟨a ++ b⟩ ∧
    stripAnsiStr ⟨a⟩ = ⟨a⟩ := by
  refine ⟨fun line => by simp [processKatiLine], ?_, ?_⟩
  · unfold stripAnsiStr
    exact congrArg String.mk (stripAnsi_removes a b ps f ha hb hps hf)
  · exact congrArg String.mk (stripAnsi_no_esc a ha)

/-- C6 witness: a line carrying the cursor-clear sequence `ESC [ 2 K`
rendered non-interactively, both via the line equation and the stripping
equation. -/
theorem c6_witness :
    processKatiLine false (some 80) ⟨true, "o", "e"⟩ "ab\x1b[2Kcd" =
      ⟨true, "o", "e" ++ stripAnsiStr "ab\x1b[2Kcd" ++ "\n"⟩ ∧
    stripAnsiStr ⟨['a', 'b'] ++ '\x1b' :: '[' :: (['2'] ++ 'K' :: ['c', 'd'])⟩ =
      ⟨['a', 'b', 'c', 'd']⟩ :=
  ⟨(c6_noninteractive_strip (some 80) ⟨true, "o", "e"⟩ ['a', 'b'] ['c', 'd'] ['2'] 'K'
      (by decide) (by decide) (by decide) (by decide)).1 "ab\x1b[2Kcd",
   (c6_noninteractive_strip (some 80) ⟨true, "o", "e"⟩ ['a', 'b'] ['c', 'd'] ['2'] 'K'
      (by decide) (by decide) (by decide) (by decide)).2.1⟩

/-- Splitting the scanner loop at a list append. -/
theorem katiLoop_append (smart : Bool) (width : Nat → Option Nat)
    (i : Nat) (st : KatiState) (ls1 ls2 : List String) :
    katiLoop smart width i st (ls1 ++ ls2) =
      katiLoop smart width (i + ls1.length) (katiLoop smart width i st ls1) ls2 := by
  induction ls1 generalizing i st with
  | nil => simp [katiLoop]
  | cons l ls ih =>
    simp only [List.cons_append, katiLoop, List.length_cons, List.append_eq]
    rw [ih]
    have harith : i + 1 + ls.length = i + (ls.length + 1) := by omega
    rw [harith]

/-- C5: the streamer never leaves a transient line uncommitted at stream
end: whenever the loop ends in TRANSIENT_HELD, exactly one final newline is
appended to the interactive sink; in particular a transcript ending in a
PROGRESS line ends held, and its interactive output is the loop's output
followed by that single committing newline. -/
theorem c5_commit_on_stream_end (width : Nat → Option Nat)
    (lines : List String) (l : String) (h : katiIncludeMatch l = true) :
    (∀ ls : List String,
      (katiLoop true width 0 ⟨true, "", ""⟩ ls).haveBlankLine = false →
      katiRewriteOutput true width ls =
        ⟨false, (katiLoop true width 0 ⟨true, "", ""⟩ ls).stdout ++ "\n",
         (katiLoop true width 0 ⟨true, "", ""⟩ ls).stderr⟩) ∧
    (katiLoop true width 0 ⟨true, "", ""⟩ (lines ++ [l])).haveBlankLine = false ∧
    (katiRewriteOutput true width (lines ++ [l])).stdout =
      (katiLoop true width 0 ⟨true, "", ""⟩ (lines ++ [l])).stdout ++ "\n" := by
  have hloop : ∀ ls : List String,
      (katiLoop true width 0 ⟨true, "", ""⟩ ls).haveBlankLine = false →
      katiRewriteOutput true width ls =
        ⟨false, (katiLoop true width 0 ⟨true, "", ""⟩ ls).stdout ++ "\n",
         (katiLoop true width 0 ⟨true, "", ""⟩ ls).stderr⟩ := by
    intro ls hheld
    unfold katiRewriteOutput
    simp only [hheld, Bool.not_false, if_true]
  have hheld : (katiLoop true width 0 ⟨true, "", ""⟩ (lines ++ [l])).haveBlankLine = false := by
    rw [katiLoop_append]
    simp only [katiLoop]
    simp [processKatiLine, h]
  exact ⟨hloop, hheld, by rw [hloop _ hheld]⟩

/-- C5 witness: a transcript whose last line is a PROGRESS line, rendered
interactively, ends with the committing newline. -/
theorem c5_witness :
    katiIncludeMatch "including b.mk ..." = true ∧
    (katiLoop true (fun _ => none) 0 ⟨true, "", ""⟩
        ["cat warning", "including b.mk ..."]).haveBlankLine = false ∧
    (katiRewriteOutput true (fun _ => none)
        ["cat warning", "including b.mk ..."]).stdout =
      (katiLoop true (fun _ => none) 0 ⟨true, "", ""⟩
        ["cat warning", "including b.mk ..."]).stdout ++ "\n" :=
  ⟨by decide,
   (c5_commit_on_stream_end (fun _ => none) ["cat warning"] "including b.mk ..."
      (by decide)).2⟩

/-! ## Running the kati process (`runKati`)

The interactions with the operating system — obtaining the merged output
pipe, starting the process, and waiting for it — are modelled by explicit
outcome parameters; `ctx.Fatalln` becomes the returned fatal message.
`Fatalln` joins its arguments with single spaces, so
`Fatalln("ckati failed with:", s)` reports `"ckati failed with: " ++ s`. -/

/-- The outcome of `cmd.Wait()`: clean zero exit, an `exec.ExitError`
carrying the textual `ProcessState` description (non-zero exit or abnormal
termination), or any other error. -/
inductive WaitOutcome where
  | success
  | exitError (processState : String)
  | otherError (msg : String)
deriving DecidableEq

/-- The result of `runKati` after `genKatiSuffix`: the streamer output (if
the process was started) and the fatal message, if any.  `pipeErr` is the
error from `cmd.StdoutPipe()`, `startErr` the error from `cmd.Start()`. -/
def runKati (pipeErr startErr : Option String) (smart : Bool)
    (width : Nat → Option Nat) (lines : List String) (wait : WaitOutcome) :
    Option KatiState × Option String :=
  match pipeErr with
  | some e => (none, some ("Error getting output pipe for ckati: " ++ e))
  | none =>
    match startErr with
    | some e => (none, some ("Failed to run ckati: " ++ e))
    | none =>
      let out := katiRewriteOutput smart width lines
      match wait with
      | .success => (some out, none)
      | .exitError ps => (some out, some ("ckati failed with: " ++ ps))
      | .otherError e => (some out, some ("Failed to run ckati: " ++ e))

/-- C7: `runKati` raises exactly one fatal error per failure and none on a
clean exit — a start failure is fatal immediately with the underlying
system error (no output is relayed), a non-zero exit is fatal with the
process's textual exit-status description, any other wait error is the
generic fatal failure, and a zero exit raises nothing. -/
theorem c7_fatal_outcomes (smart : Bool) (width : Nat → Option Nat)
    (lines : List String) (wait : WaitOutcome) (e ps m : String) :
    runKati none (some e) smart width lines wait =
      (none, some ("Failed to run ckati: " ++ e)) ∧
    runKati none none smart width lines .success =
      (some (katiRewriteOutput smart width lines), none) ∧
    runKati none none smart width lines (.exitError ps) =
      (some (katiRewriteOutput smart width lines),
       some ("ckati failed with: " ++ ps)) ∧
    runKati none none smart width lines (.otherError m) =
      (some (katiRewriteOutput smart width lines),
       some ("Failed to run ckati: " ++ m)) :=
  ⟨rfl, rfl, rfl, rfl⟩

/-! ## The kati suffix (`genKatiSuffix`)

`md5.Sum` (from Go's standard library) is an opaque 128-bit digest here: the
claims at hand depend only on its output size, so the digest function is a
parameter.  The observable actions of `genKatiSuffix` — setting the config
suffix, verbose logging, writing the side file, printing a write error —
are collected in order as a trace. -/

/-- `strings.NewReplacer("/", "_", " ", "_").Replace`. -/
def spaceSlashReplace (s : String) : String :=
  ⟨s.data.map (fun c => if c = '/' ∨ c = ' ' then '_' else c)⟩

/-- `strings.TrimSuffix(s, "ninja")`. -/
def trimSuffixNinja (s : String) : String :=
  if s.endsWith "ninja" then s.dropRight 5 else s

/-- The hex digit characters used by Go's `%x` formatting. -/
def hexDigitChar (n : Nat) : Char :=
  if n < 10 then Char.ofNat (48 + n) else Char.ofNat (87 + n)

/-- `fmt.Sprintf("%x", d)` of a 16-byte digest: the 32-digit zero-padded
lowercase hex form of the digest read as a big-endian number. -/
def hex32 (d : Fin (2 ^ 128)) : String :=
  ⟨(List.range 32).map (fun i => hexDigitChar (d.val / 16 ^ (31 - i) % 16))⟩

/-- The configuration inputs `genKatiSuffix` reads. -/
structure KatiConfig where
  targetProduct : String
  katiArgs : List String
  oneShotMakefile : Option String
  katiNinjaFile : String

/-- The accumulated suffix before the length check: the target product, the
kati arguments and the `ONE_SHOT_MAKEFILE` value, each `-`-separated, with
slashes and spaces replaced by underscores. -/
def computeKatiSuffix (c : KatiConfig) : String :=
  let s1 := "-" ++ c.targetProduct
  let s2 := if c.katiArgs.length > 0 then
      s1 ++ "-" ++ spaceSlashReplace ("_".intercalate c.katiArgs)
    else s1
  match c.oneShotMakefile with
  | some oneShot => s2 ++ "-" ++ spaceSlashReplace oneShot
  | none => s2

/-- An observable action of `genKatiSuffix`, in execution order. -/
inductive KatiEvent where
  | setSuffix (s : String)
  | verbose (msg : String)
  | writeFile (path content : String)
  | println (msg : String)
  | fatal (msg : String)
deriving DecidableEq

/-- `genKatiSuffix`: build the suffix; if it exceeds 64 characters, install
the 33-character md5 replacement first and then write the side file holding
the original suffix, merely printing any write error (`writeOk = false`);
otherwise install the suffix as computed. -/
def genKatiSuffix (md5 : String → Fin (2 ^ 128)) (writeOk : Bool)
    (c : KatiConfig) : List KatiEvent :=
  let katiSuffix := computeKatiSuffix c
  if katiSuffix.length > 64 then
    let shortSuffix := "-" ++ hex32 (md5 katiSuffix)
    [.setSuffix shortSuffix,
     .verbose ("Kati ninja suffix too long: " ++ katiSuffix),
     .verbose ("Replacing with: " ++ shortSuffix),
     .writeFile (trimSuffixNinja c.katiNinjaFile ++ "suf") katiSuffix] ++
      (if writeOk then [] else [.println "Error writing suffix file:"])
  else
    [.setSuffix katiSuffix]

/-- C10: whenever the computed suffix exceeds 64 characters, the installed
replacement is `-` followed by the 32 hex digits of the md5 of the full
suffix — 33 characters for every digest — and it is installed before the
side file holding the original suffix is written; a failed write only adds
a printed error, with no fatal event, the hash suffix already in effect. -/
theorem c10_long_suffix_hashed (md5 : String → Fin (2 ^ 128)) (writeOk : Bool)
    (c : KatiConfig) (h : (computeKatiSuffix c).length > 64) :
    ("-" ++ hex32 (md5 (computeKatiSuffix c))).length = 33 ∧
    genKatiSuffix md5 writeOk c =
      [.setSuffix ("-" ++ hex32 (md5 (computeKatiSuffix c))),
       .verbose ("Kati ninja suffix too long: " ++ computeKatiSuffix c),
       .verbose ("Replacing with: " ++ ("-" ++ hex32 (md5 (computeKatiSuffix c)))),
       .writeFile (trimSuffixNinja c.katiNinjaFile ++ "suf") (computeKatiSuffix c)] ++
        (if writeOk then [] else [.println "Error writing suffix file:"]) ∧
    (∀ e ∈ genKatiSuffix md5 false c, ∀ msg : String, e ≠ .fatal msg) := by
  have hlen : ∀ d : Fin (2 ^ 128), ("-" ++ hex32 d).length = 33 := by
    intro d
    show ("-" ++ hex32 d).data.length = 33
    rw [String.data_append]
    simp [hex32]
  refine ⟨hlen _, by simp [genKatiSuffix, h], ?_⟩
  intro e he msg
  have heq : genKatiSuffix md5 false c =
      [.setSuffix ("-" ++ hex32 (md5 (computeKatiSuffix c))),
       .verbose ("Kati ninja suffix too long: " ++ computeKatiSuffix c),
       .verbose ("Replacing with: " ++ ("-" ++ hex32 (md5 (computeKatiSuffix c)))),
       .writeFile (trimSuffixNinja c.katiNinjaFile ++ "suf") (computeKatiSuffix c),
       .println "Error writing suffix file:"] := by
    simp [genKatiSuffix, h]
  rw [heq] at he
  simp only [List.mem_cons, List.not_mem_nil, or_false] at he
  rcases he with rfl | rfl | rfl | rfl | rfl <;>
    exact fun hc => KatiEvent.noConfusion hc

/-- C10 witness: a 70-character product name forces the hash replacement;
the digest function is instantiated by the constant zero digest. -/
theorem c10_witness :
    (computeKatiSuffix ⟨String.mk (List.replicate 70 'p'), [], none, "out/build.ninja"⟩).length > 64 ∧
    ("-" ++ hex32 ((fun _ => (0 : Fin (2 ^ 128)))
        (computeKatiSuffix ⟨String.mk (List.replicate 70 'p'), [], none, "out/build.ninja"⟩))).length = 33 :=
  ⟨by decide,
   (c10_long_suffix_hashed (fun _ => (0 : Fin (2 ^ 128))) false
      ⟨String.mk (List.replicate 70 'p'), [], none, "out/build.ninja"⟩ (by decide)).1⟩

/-! ## Classification theorems

`includeTail` was made deterministic by always splitting at the first space;
the lemmas below recover the regular expression's declarative reading as an
existential over decompositions of the line. -/

theorem includeTailAfter_iff (cs : List Char) :
    includeTailAfter cs = true ↔
      ∃ w t : List Char, cs = w ++ ' ' :: t ∧ (∀ c ∈ w, c ≠ ' ') ∧
        t.length = 3 ∧ ∀ c ∈ t, c ≠ '\n' := by
  induction cs with
  | nil =>
    constructor
    · intro h; simp [includeTailAfter] at h
    · rintro ⟨w, t, hw, -⟩
      exact absurd hw (by cases w <;> simp)
  | cons c rest ih =>
    by_cases hc : c = ' '
    · subst hc
      have hstep : includeTailAfter (' ' :: rest) =
          (rest.length == 3 && rest.all (fun d => d != '\n')) := by
        simp [includeTailAfter]
      rw [hstep, Bool.and_eq_true]
      constructor
      · intro h
        refine ⟨[], rest, rfl, by simp, by simpa using h.1, ?_⟩
        intro d hd
        simpa using List.all_eq_true.mp h.2 d hd
      · rintro ⟨w, t, heq, hw, ht3, htn⟩
        cases w with
        | nil =>
          simp only [List.nil_append, List.cons.injEq, true_and] at heq
          subst heq
          exact ⟨by simpa using ht3,
                 List.all_eq_true.mpr (fun d hd => by simpa using htn d hd)⟩
        | cons x ws =>
          simp only [List.cons_append, List.cons.injEq] at heq
          exact absurd heq.1.symm (hw x (List.mem_cons_self x ws))
    · simp only [includeTailAfter, if_neg hc]
      rw [ih]
      constructor
      · rintro ⟨w, t, heq, hw, ht3, htn⟩
        refine ⟨c :: w, t, by simp [heq], ?_, ht3, htn⟩
        intro d hd
        rcases List.mem_cons.mp hd with rfl | hd
        · exact hc
        · exact hw d hd
      · rintro ⟨w, t, heq, hw, ht3, htn⟩
        cases w with
        | nil =>
          simp only [List.nil_append, List.cons.injEq] at heq
          exact absurd heq.1 hc
        | cons x ws =>
          simp only [List.cons_append, List.cons.injEq] at heq
          obtain ⟨rfl, hrest⟩ := heq
          exact ⟨ws, t, hrest, fun d hd => hw d (List.mem_cons_of_mem _ hd), ht3, htn⟩

theorem includeTail_iff (cs : List Char) :
    includeTail cs = true ↔
      ∃ w t : List Char, cs = w ++ ' ' :: t ∧ w ≠ [] ∧ (∀ c ∈ w, c ≠ ' ') ∧
        t.length = 3 ∧ ∀ c ∈ t, c ≠ '\n' := by
  cases cs with
  | nil =>
    constructor
    · intro h; simp [includeTail] at h
    · rintro ⟨w, t, hw, -⟩
      exact absurd hw (by cases w <;> simp)
  | cons c rest =>
    simp only [includeTail, Bool.and_eq_true, bne_iff_ne, ne_eq]
    rw [includeTailAfter_iff]
    constructor
    · rintro ⟨hc, w, t, heq, hw, ht3, htn⟩
      refine ⟨c :: w, t, by simp [heq], by simp, ?_, ht3, htn⟩
      intro d hd
      rcases List.mem_cons.mp hd with rfl | hd
      · exact hc
      · exact hw d hd
    · rintro ⟨w, t, heq, hne, hw, ht3, htn⟩
      cases w with
      | nil => exact absurd rfl hne
      | cons x ws =>
        simp only [List.cons_append, List.cons.injEq] at heq
        obtain ⟨rfl, hrest⟩ := heq
        exact ⟨hw c (List.mem_cons_self c ws), ws, t, hrest,
               fun d hd => hw d (List.mem_cons_of_mem _ hd), ht3, htn⟩

theorem matchIncluding_iff (cs : List Char) :
    matchIncluding cs = true ↔
      ∃ w t : List Char, cs = includingLit ++ (w ++ ' ' :: t) ∧ w ≠ [] ∧
        (∀ c ∈ w, c ≠ ' ') ∧ t.length = 3 ∧ ∀ c ∈ t, c ≠ '\n' := by
  have hlen : includingLit.length = 10 := by decide
  unfold matchIncluding
  rw [Bool.and_eq_true]
  constructor
  · rintro ⟨h10, htail⟩
    have hbeq : cs.take 10 = includingLit := by simpa using h10
    have hcs : cs = includingLit ++ cs.drop 10 := by
      conv_lhs => rw [← List.take_append_drop 10 cs]
      rw [hbeq]
    obtain ⟨w, t, heq, hne, hw, ht3, htn⟩ := (includeTail_iff _).mp htail
    exact ⟨w, t, by rw [hcs, heq], hne, hw, ht3, htn⟩
  · rintro ⟨w, t, heq, hne, hw, ht3, htn⟩
    subst heq
    constructor
    · simp [List.take_left' hlen]
    · rw [List.drop_left' hlen]
      exact (includeTail_iff _).mpr ⟨w, t, rfl, hne, hw, ht3, htn⟩

theorem takeWhile_all_append (p : Char → Bool) (a : List Char) (x : Char)
    (r : List Char) (ha : ∀ c ∈ a, p c = true) (hx : p x = false) :
    (a ++ x :: r).takeWhile p = a := by
  induction a with
  | nil => simp [List.takeWhile_cons, hx]
  | cons y ys ih =>
    have hy : p y = true := ha y (List.mem_cons_self y ys)
    simp only [List.cons_append, List.takeWhile_cons, hy, if_true]
    rw [ih (fun c hc => ha c (List.mem_cons_of_mem y hc))]

theorem dropWhile_all_append (p : Char → Bool) (a : List Char) (x : Char)
    (r : List Char) (ha : ∀ c ∈ a, p c = true) (hx : p x = false) :
    (a ++ x :: r).dropWhile p = x :: r := by
  induction a with
  | nil => simp [List.dropWhile_cons, hx]
  | cons y ys ih =>
    have hy : p y = true := ha y (List.mem_cons_self y ys)
    simp only [List.cons_append, List.dropWhile_cons, hy, if_true]
    exact ih (fun c hc => ha c (List.mem_cons_of_mem y hc))

theorem span_all_append (p : Char → Bool) (a : List Char) (x : Char)
    (r : List Char) (ha : ∀ c ∈ a, p c = true) (hx : p x = false) :
    (a ++ x :: r).span p = (a, x :: r) := by
  rw [List.span_eq_take_drop, takeWhile_all_append p a x r ha hx,
      dropWhile_all_append p a x r ha hx]

/-- A counter of the shape the regular expression's group describes is
consumed exactly, leaving the rest of the line. -/
theorem parseCounter_complete (a b r : List Char) (ha0 : a ≠ [])
    (had : ∀ c ∈ a, c.isDigit = true) (hb0 : b ≠ [])
    (hbd : ∀ c ∈ b, c.isDigit = true) :
    parseCounter ('[' :: (a ++ '/' :: (b ++ ']' :: ' ' :: r))) = some r := by
  have hslash : ('/' : Char).isDigit = false := by decide
  have hbracket : (']' : Char).isDigit = false := by decide
  cases a with
  | nil => exact absurd rfl ha0
  | cons a0 as =>
    cases b with
    | nil => exact absurd rfl hb0
    | cons b0 bs =>
      simp only [parseCounter,
        span_all_append Char.isDigit (a0 :: as) '/' _ had hslash,
        span_all_append Char.isDigit (b0 :: bs) ']' _ hbd hbracket]

/-- Whatever `parseCounter` consumes has exactly the counter shape. -/
theorem parseCounter_sound {cs r : List Char} (h : parseCounter cs = some r) :
    ∃ a b : List Char, (∀ c ∈ a, c.isDigit = true) ∧
      (∀ c ∈ b, c.isDigit = true) ∧ a ≠ [] ∧ b ≠ [] ∧
      cs = '[' :: (a ++ '/' :: (b ++ ']' :: ' ' :: r)) := by
  unfold parseCounter at h
  split at h
  case _ rest =>
    rcases hsp : rest.span Char.isDigit with ⟨ds, rest2⟩
    rw [hsp] at h
    have hpair : ds = rest.takeWhile Char.isDigit ∧
        rest2 = rest.dropWhile Char.isDigit := by
      have hs := List.span_eq_take_drop (p := Char.isDigit) rest
      rw [hsp] at hs
      exact ⟨congrArg Prod.fst hs, congrArg Prod.snd hs⟩
    have hjoin : rest = ds ++ rest2 := by
      rw [hpair.1, hpair.2, List.takeWhile_append_dropWhile]
    have hdsdig : ∀ c ∈ ds, c.isDigit = true := fun c hcm =>
      List.mem_takeWhile_imp (hpair.1 ▸ hcm)
    split at h
    case _ => exact absurd h (by simp)
    case _ hd tl rst heq =>
      have hds : ds = hd :: tl := congrArg Prod.fst heq
      have hrst : rest2 = rst := congrArg Prod.snd heq
      subst hds
      subst hrst
      split at h
      case _ rest3 =>
        rcases hsp2 : rest3.span Char.isDigit with ⟨ds2, rest4⟩
        rw [hsp2] at h
        have hpair2 : ds2 = rest3.takeWhile Char.isDigit ∧
            rest4 = rest3.dropWhile Char.isDigit := by
          have hs := List.span_eq_take_drop (p := Char.isDigit) rest3
          rw [hsp2] at hs
          exact ⟨congrArg Prod.fst hs, congrArg Prod.snd hs⟩
        have hjoin2 : rest3 = ds2 ++ rest4 := by
          rw [hpair2.1, hpair2.2, List.takeWhile_append_dropWhile]
        have hds2dig : ∀ c ∈ ds2, c.isDigit = true := fun c hcm =>
          List.mem_takeWhile_imp (hpair2.1 ▸ hcm)
        split at h
        case _ => exact absurd h (by simp)
        case _ hd2 tl2 rst2 heq2 =>
          have hds2 : ds2 = hd2 :: tl2 := congrArg Prod.fst heq2
          have hrst2 : rest4 = rst2 := congrArg Prod.snd heq2
          subst hds2
          subst hrst2
          split at h
          case _ rest5 =>
            have hr : rest5 = r := by simpa using h
            subst hr
            refine ⟨hd :: tl, hd2 :: tl2, hdsdig, hds2dig, by simp, by simp, ?_⟩
            rw [hjoin, hjoin2]
          case _ => exact absurd h (by simp)
      case _ => exact absurd h (by simp)
  case _ => exact absurd h (by simp)

/-- C2 counterexample: the line `including foo xyz` is classified PROGRESS
by the code — the pattern's three trailing dots are unescaped and match the
arbitrary characters `xyz` — while the claim's reading (three literal dots
at end of line) classifies it DURABLE. -/
theorem c2_counterexample :
    katiIncludeMatch "including foo xyz" = true ∧
    c2SpecClassify "including foo xyz" = false := by decide

/-- C2 (amended): a line is classified PROGRESS exactly when it consists of
an optional `[n/m] ` counter (digits n, m), the literal `including `, a
non-empty non-space file token, a space, and any three trailing non-newline
characters ending the line — the pattern's three dots being unescaped
metacharacters, so they match any characters, not only literal dots. -/
theorem c2_classification (s : String) :
    katiIncludeMatch s = true ↔
      ∃ p w t : List Char,
        s.data = p ++ includingLit ++ (w ++ ' ' :: t) ∧
        (p = [] ∨ ∃ a b : List Char,
          (∀ c ∈ a, c.isDigit = true) ∧ (∀ c ∈ b, c.isDigit = true) ∧
          a ≠ [] ∧ b ≠ [] ∧ p = '[' :: (a ++ '/' :: (b ++ [']', ' ']))) ∧
        w ≠ [] ∧ (∀ c ∈ w, c ≠ ' ') ∧ t.length = 3 ∧ ∀ c ∈ t, c ≠ '\n' := by
  unfold katiIncludeMatch
  rw [Bool.or_eq_true]
  constructor
  · rintro (hm | hm)
    · obtain ⟨w, t, heq, hne, hw, ht3, htn⟩ := (matchIncluding_iff _).mp hm
      exact ⟨[], w, t, by simpa using heq, Or.inl rfl, hne, hw, ht3, htn⟩
    · rcases hp : parseCounter s.data with _ | rest
      · rw [hp] at hm
        simp at hm
      · rw [hp] at hm
        obtain ⟨a, b, hadig, hbdig, ha0, hb0, hshape⟩ := parseCounter_sound hp
        obtain ⟨w, t, heq, hne, hw, ht3, htn⟩ := (matchIncluding_iff _).mp hm
        refine ⟨'[' :: (a ++ '/' :: (b ++ [']', ' '])), w, t, ?_,
          Or.inr ⟨a, b, hadig, hbdig, ha0, hb0, rfl⟩, hne, hw, ht3, htn⟩
        rw [hshape, heq]
        simp [List.append_assoc]
  · rintro ⟨p, w, t, heq, hpor, hne, hw, ht3, htn⟩
    rcases hpor with rfl | ⟨a, b, hadig, hbdig, ha0, hb0, rfl⟩
    · left
      exact (matchIncluding_iff _).mpr ⟨w, t, by simpa using heq, hne, hw, ht3, htn⟩
    · right
      have hparse : parseCounter s.data =
          some (includingLit ++ (w ++ ' ' :: t)) := by
        rw [heq]
        have hassoc : ('[' :: (a ++ '/' :: (b ++ [']', ' ']))) ++ includingLit ++
            (w ++ ' ' :: t) =
            '[' :: (a ++ '/' :: (b ++ ']' :: ' ' ::
              (includingLit ++ (w ++ ' ' :: t)))) := by
          simp [List.append_assoc]
        rw [hassoc]
        exact parseCounter_complete a b _ ha0 hadig hb0 hbdig
      rw [hparse]
      exact (matchIncluding_iff _).mpr ⟨w, t, rfl, hne, hw, ht3, htn⟩
